import Mathlib

/-!
Verification development for the 1D annotation layout engine of
`app/src/viewer_1d/annotations.rs` (waragraph).

Embedding conventions:
* `u64`/`usize`/`i64` pangenome coordinates are modelled as `ℕ` (all values in
  the code are obtained by casting from `u64`, so they are non-negative).
* `f32` screen coordinates are modelled as `ℚ` (exact arithmetic; none of the
  verified properties depends on rounding, and all branch conditions in the
  source on floats are order comparisons).
* `AnnotationId` (a `usize` newtype) is modelled as `ℕ`.
* A Rust function that can panic (`todo!()`, `unreachable!()`, `unwrap()`)
  is modelled in `Except Unit` with `.error ()` standing for the panic.
-/

namespace Waragraph

/-- Modelled from the spec: the `View1D` type lives in
`app/src/viewer_1d/view.rs`, which is not part of the provided sources.
The spec defines a View as "a half-open coordinate range over the pangenome
axis"; the verified code only uses `view.range()`, so the embedding is the
range itself: `start` inclusive, `stop` exclusive. -/
structure View1D where
  start : ℕ
  stop : ℕ
  deriving Repr, DecidableEq

/-- Embedding of `anchor_interval` (annotations.rs, lines 911-944).
Returns the range of valid anchor points along the x-axis, in screen space,
of `pan_range` under the transformation induced by `view` and
`screen_interval`; `none` when the guard `pleft > vrange.end || pright <
vrange.start` fires. -/
def anchor_interval (view : View1D) (pan_range : ℕ × ℕ)
    (screen_interval : ℚ × ℚ) : Option (ℚ × ℚ) :=
  let pleft := pan_range.1
  let pright := pan_range.2
  if pleft > view.stop ∨ pright < view.start then
    none
  else
    let vl : ℚ := (view.start : ℚ)
    let vr : ℚ := (view.stop : ℚ)
    let vlen : ℚ := vr - vl
    let left : ℕ := max pleft view.start
    let right : ℕ := min pright view.stop
    let l : ℚ := (left : ℚ)
    let r : ℚ := (right : ℚ)
    let lt : ℚ := (l - vl) / vlen
    let rt : ℚ := (r - vl) / vlen
    let sleft := screen_interval.1
    let sright := screen_interval.2
    let slen := sright - sleft
    some (sleft + lt * slen, sleft + rt * slen)

/-- Embedding of the candidate-collection loop of `AnnotSlotDynamics::prepare`
(annotations.rs, lines 191-204): each hit `(interval, id)` returned by the
spatial query contributes the candidate `(id, anchor_interval ...)` exactly
when `anchor_interval` returns `Some`. -/
def collectRanges (hits : List ((ℕ × ℕ) × ℕ)) (view : View1D)
    (screen_interval : ℚ × ℚ) : List (ℕ × (ℚ × ℚ)) :=
  hits.filterMap (fun h =>
    (anchor_interval view h.1 screen_interval).map (fun ar => (h.2, ar)))

/-- Embedding of the three-way branch at annotations.rs lines 232-238:
`none` stands for the `unreachable!()` arm. Only reached after the
containment test `tgt >= range.start && tgt <= range.end` has failed. -/
def nearestEndpoint (tgt : ℚ) (r : ℚ × ℚ) : Option ℚ :=
  if tgt < r.1 then some r.1
  else if tgt > r.2 then some r.2
  else none

/-- Embedding of the anchor-constraint loop of `AnnotSlotDynamics::prepare`
(annotations.rs, lines 220-245).  Arguments `dist` and `closest` are the
loop accumulators `dist` (with `none` standing for the initial
`f32::INFINITY`) and `closest_tgt`.  Returns `.error ()` if the
`unreachable!()` arm is executed, otherwise `.ok closest_tgt`. -/
def constrainLoop (tgt : ℚ) : List (ℚ × ℚ) → Option ℚ → Option ℚ →
    Except Unit (Option ℚ)
  | [], _dist, closest => .ok closest
  | r :: rest, dist, closest =>
    if tgt ≥ r.1 ∧ tgt ≤ r.2 then
      .ok (some tgt)
    else
      match nearestEndpoint tgt r with
      | none => .error ()
      | some c =>
        let newDist := |c - tgt|
        let better : Bool :=
          match dist with
          | none => true
          | some d => decide (newDist < d)
        if better then constrainLoop tgt rest (some newDist) (some c)
        else constrainLoop tgt rest dist closest

/-- Embedding of the whole existing-target branch at annotations.rs lines
219-249: run the constraint loop with `dist = ∞`, `closest_tgt = None`;
afterwards the target is overwritten only when `closest_tgt` is `Some`. -/
def updateTarget (tgt : ℚ) (ranges : List (ℚ × ℚ)) : Except Unit ℚ :=
  (constrainLoop tgt ranges none none).map (fun closest => closest.getD tgt)

/-- Embedding of `rand::distributions::WeightedIndex` sampling as used at
annotations.rs lines 259-261: the sampler draws `x` uniformly from
`[0, total_weight)` and returns the first index whose cumulative weight
exceeds `x`.  `weightedIndex ws x` is that index as a function of the
uniform draw `x`. -/
def weightedIndex : List ℚ → ℚ → ℕ
  | [], _ => 0
  | w :: rest, x => if x < w then 0 else weightedIndex rest (x - w) + 1

/-- Embedding of `rng.gen_range(a..=b)` on an `f32` inclusive range
(annotations.rs line 262) as a function of a uniform draw `u ∈ [0, 1]`. -/
def genRangeInclusive (a b u : ℚ) : ℚ := a + u * (b - a)

/-- Embedding of the fresh-target branch of `AnnotSlotDynamics::prepare`
(annotations.rs, lines 250-265): weights are the sub-range lengths
`r.end - r.start`.  `WeightedIndex::new(&lens)` returns `Err` — so the
`.unwrap()` at line 259 panics, modelled as `.error ()` — when the weight
list is empty, contains a negative weight, or sums to zero; otherwise one
sub-range is sampled through the weighted index (uniform draw `x`), then a
point is drawn inside it (uniform draw `u`). -/
def chooseNewTarget (ranges : List (ℚ × ℚ)) (x u : ℚ) : Except Unit ℚ :=
  let lens := ranges.map (fun r => r.2 - r.1)
  if lens = [] ∨ (∃ w ∈ lens, w < 0) ∨ lens.sum = 0 then .error ()
  else
    let ix := weightedIndex lens x
    let r := ranges.getD ix (0, 0)
    .ok (genRangeInclusive r.1 r.2 u)

/-- Prefix sums of a weight list: `presum ws i` is the total weight of the
first `i` entries.  Used to state which uniform draws select which index. -/
def presum (ws : List ℚ) (i : ℕ) : ℚ := (ws.take i).sum

/-- Embedding of the mutable per-annotation state `AnnotObj`
(annotations.rs, lines 113-124); the dead field `pos` is omitted along with
the rest of the commented-out physics code. -/
structure AnnotObjE where
  annot_id : ℕ
  anchor_target_pos : Option ℚ
  anchor_pos : Option ℚ
  shape_size : Option (ℚ × ℚ)
  deriving Repr, DecidableEq

/-- Embedding of the closure `apply_tf` in `AnnotSlotDynamics::update_simple`
(annotations.rs, lines 472-481): `x ↦ (x - x0) * a - w * b + x0` where `w`
is the screen width and `x0` its left edge. -/
def applyTf (a b w x0 x : ℚ) : ℚ := (x - x0) * a - w * b + x0

/-- Transform step applied to one visible object inside the loop of
`update_simple` (annotations.rs, lines 469-485): both the anchor target and
the anchor position are mapped through `applyTf` when a transform is
present. -/
def transformObj (transform : Option (ℚ × ℚ)) (w x0 : ℚ) (obj : AnnotObjE) :
    AnnotObjE :=
  match transform with
  | none => obj
  | some ab =>
    { obj with
      anchor_target_pos :=
        obj.anchor_target_pos.map (applyTf ab.1 ab.2 w x0)
      anchor_pos := obj.anchor_pos.map (applyTf ab.1 ab.2 w x0) }

/-- Embedding of `AnnotSlotDynamics::update_simple` (annotations.rs, lines
420-541).  The loop over `visible_set` applies the view transform to each
visible object; the function then executes `todo!()` (line 490)
unconditionally, i.e. every call panics before performing any label
placement.  The panic is modelled as `.error ()`. -/
def update_simple (objs : List AnnotObjE) (annot_obj_map : ℕ → ℕ)
    (visible_set : List ℕ) (transform : Option (ℚ × ℚ))
    (screenWidth screenLeft : ℚ) :
    Except Unit (List (ℕ × ℚ)) :=
  let _objsAfterLoop := visible_set.foldl
    (fun os annotId =>
      os.enum.map (fun p =>
        if p.1 = annot_obj_map annotId then
          transformObj transform screenWidth screenLeft p.2
        else p.2))
    objs
  .error ()

/-- Status of a spawned layout task as observed by `AnnotSlot::update`:
still running, finished with a result (`block_on` returns `Ok`), or
finished by panicking/abort (`block_on` returns `Err`). -/
inductive TaskStatus where
  | running : TaskStatus
  | finishedOk : List (ℕ × ℚ) → TaskStatus
  | finishedPanic : TaskStatus
  deriving Repr, DecidableEq

/-- The scheduler-visible state of an `AnnotSlot` (annotations.rs, lines
80-96): the optional outstanding task handle and the stored last-good
positions list. -/
structure SlotSched where
  task : Option TaskStatus
  positions : List (ℕ × ℚ)
  deriving Repr, DecidableEq

/-- Embedding of `AnnotSlot::update` (annotations.rs, lines 834-853)
together with `update_spawn_task` (lines 855-889): take the handle; if the
task is finished, harvest (`Ok` replaces the positions, `Err` keeps them)
leaving the handle cleared; if unfinished, put the handle back; if there
was no handle, spawn a new task (`spawned` is the handle the freshly
spawned task would get). -/
def slotUpdate (s : SlotSched) (spawned : TaskStatus) : SlotSched :=
  match s.task with
  | some handle =>
    match handle with
    | .running => { task := some .running, positions := s.positions }
    | .finishedOk res => { task := none, positions := res }
    | .finishedPanic => { task := none, positions := s.positions }
  | none => { task := some spawned, positions := s.positions }

/-- Embedding of the spatial-index-plus-callbacks part of `AnnotSlot`:
`annots` is the content of the bulk-loaded `RTree` as a list of
`(interval, AnnotationId)` pairs, `shape_fns` the render-callback table
(callback payloads of type `σ`). -/
structure AnnotSlotE (σ : Type) where
  annots : List ((ℕ × ℕ) × ℕ)
  shape_fns : List σ

/-- The entry-building loop of `AnnotSlot::new_from_pangenome_space`
(annotations.rs, lines 774-780): `.enumerate()` assigns ids, each range is
stored in the index as given. -/
def pangenomeEntries {σ : Type} : ℕ → List ((ℕ × ℕ) × σ) →
    List ((ℕ × ℕ) × ℕ)
  | _, [] => []
  | i, (r, _) :: rest => ((r.1, r.2), i) :: pangenomeEntries (i + 1) rest

/-- Embedding of `AnnotSlot::new_from_pangenome_space` (annotations.rs,
lines 768-792), restricted to the fields the claims are about. -/
def new_from_pangenome_space {σ : Type} (annotations : List ((ℕ × ℕ) × σ)) :
    AnnotSlotE σ :=
  { annots := pangenomeEntries 0 annotations
    shape_fns := annotations.map (fun a => a.2) }

/-- The entry-building loop of `AnnotSlot::new_from_path_space`
(annotations.rs, lines 806-819).  `node_length` and `path_step_range_iter`
are the two `PathIndex` operations used by the constructor; `PathIndex`
lives in `waragraph_core`, outside the provided sources, so they are kept
abstract: `path_step_range_iter path range` optionally yields the
`(start, node)` steps covering `range`.  Each yielded step becomes the
index entry `(start, min (start + node_length node) range.end)`. -/
def pathEntries {σ : Type} (node_length : ℕ → ℕ)
    (path_step_range_iter : ℕ → ℕ × ℕ → Option (List (ℕ × ℕ))) :
    ℕ → List ((ℕ × (ℕ × ℕ)) × σ) → List ((ℕ × ℕ) × ℕ)
  | _, [] => []
  | i, ((path, path_range), _) :: rest =>
    let range_end := path_range.2
    let here :=
      match path_step_range_iter path path_range with
      | none => []
      | some steps =>
        steps.map (fun st =>
          let len := node_length st.2
          ((st.1, min (st.1 + len) range_end), i))
    here ++ pathEntries node_length path_step_range_iter (i + 1) rest

/-- Embedding of `AnnotSlot::new_from_path_space` (annotations.rs, lines
797-832), restricted to the fields the claims are about. -/
def new_from_path_space {σ : Type} (node_length : ℕ → ℕ)
    (path_step_range_iter : ℕ → ℕ × ℕ → Option (List (ℕ × ℕ)))
    (annotations : List ((ℕ × (ℕ × ℕ)) × σ)) : AnnotSlotE σ :=
  { annots := pathEntries node_length path_step_range_iter 0 annotations
    shape_fns := annotations.map (fun a => a.2) }

/-! Helper lemmas -/

lemma not_contain_cases {tgt a b : ℚ} (h : ¬ (tgt ≥ a ∧ tgt ≤ b)) :
    tgt < a ∨ tgt > b := by
  by_cases h1 : tgt < a
  · exact Or.inl h1
  · push_neg at h1
    right
    by_contra h2
    push_neg at h2
    exact h ⟨h1, h2⟩

lemma nearestEndpoint_of_not_contain {tgt : ℚ} {r : ℚ × ℚ}
    (h : ¬ (tgt ≥ r.1 ∧ tgt ≤ r.2)) :
    nearestEndpoint tgt r = some (if tgt < r.1 then r.1 else r.2) := by
  by_cases h1 : tgt < r.1
  · simp [nearestEndpoint, h1]
  · rcases not_contain_cases h with h2 | h2
    · exact absurd h2 h1
    · simp [nearestEndpoint, h1, h2]

/-! Claim theorems -/

/-- C1: the claim states that `update_simple` performs deterministic
first-fit placement and returns the accepted `(id, position)` list.  The
code instead reaches the unconditional `todo!()` at annotations.rs line 490
and panics before any placement is performed; this theorem evaluates the
embedded function at a concrete failing input (one visible annotation with
an anchor target and a measured size). -/
theorem c1_placement_hits_todo :
    update_simple [⟨0, some 10, none, some (4, 2)⟩] id [0] none 100 0
      = .error () := rfl

/-- C2: the claim states that every layout task is total and runs to
completion on well-formed inputs.  It does not: `update_simple` ends in an
unconditional `todo!()`, so every spawned layout task panics, for all
inputs (including the empty ones the claim singles out as valid). -/
theorem c2_layout_task_never_completes (objs : List AnnotObjE)
    (annot_obj_map : ℕ → ℕ) (visible_set : List ℕ)
    (transform : Option (ℚ × ℚ)) (screenWidth screenLeft : ℚ) :
    update_simple objs annot_obj_map visible_set transform
      screenWidth screenLeft = .error () := rfl

/-- C3 counterexample: the claim states that after a layout task
aborts/panics no new task is ever spawned for the slot.  Concretely: a slot
whose outstanding task has panicked, driven through two updates, holds a
freshly spawned task handle again (while the panicked harvest kept the
stored positions unchanged), so a new task is spawned. -/
theorem c3_counterexample :
    (slotUpdate (slotUpdate ⟨some .finishedPanic, [(0, 5)]⟩ .running)
        .running).task = some .running ∧
    (slotUpdate ⟨some .finishedPanic, [(0, 5)]⟩ .running).positions
      = [(0, 5)] := by
  exact ⟨rfl, rfl⟩

/-- C3 (amended): harvesting a panicked task keeps the stored positions
unchanged and clears the task handle, and the very next update spawns a new
task; the slot is not permanently stalled. -/
theorem c3_panic_harvest_then_respawn (s : SlotSched) (t u : TaskStatus)
    (h : s.task = some .finishedPanic) :
    slotUpdate s t = { task := none, positions := s.positions } ∧
    (slotUpdate (slotUpdate s t) u).task = some u := by
  have h1 : slotUpdate s t = { task := none, positions := s.positions } := by
    simp [slotUpdate, h]
  refine ⟨h1, ?_⟩
  rw [h1]
  simp [slotUpdate]

/-- C3 witness for the amended theorem, at a concrete slot state. -/
theorem c3_panic_harvest_then_respawn_witness :
    (SlotSched.task ⟨some .finishedPanic, [(0, 5)]⟩ = some .finishedPanic) ∧
    (slotUpdate ⟨some .finishedPanic, [(0, 5)]⟩ .running
        = { task := none, positions := [(0, 5)] } ∧
      (slotUpdate (slotUpdate ⟨some .finishedPanic, [(0, 5)]⟩ .running)
          .running).task = some .running) :=
  ⟨rfl, c3_panic_harvest_then_respawn ⟨some .finishedPanic, [(0, 5)]⟩
    .running .running rfl⟩

/-- C6: single-flight invariant.  A slot holds at most one task handle by
construction (`task : Option TaskStatus`), and while an unfinished task is
outstanding an update call changes neither the handle nor the stored
positions; in particular two consecutive updates during a slow task leave
the state — and hence the single outstanding handle — unchanged. -/
theorem c6_single_flight (s : SlotSched) (t u : TaskStatus)
    (h : s.task = some .running) :
    slotUpdate s t = s ∧ slotUpdate (slotUpdate s t) u = s := by
  have h1 : ∀ v : TaskStatus, slotUpdate s v = s := by
    intro v
    cases s
    simp_all [slotUpdate]
  exact ⟨h1 t, by rw [h1 t, h1 u]⟩

/-- C6 witness at a concrete slot state with an unfinished task. -/
theorem c6_single_flight_witness :
    (SlotSched.task ⟨some .running, [(3, 7)]⟩ = some .running) ∧
    (slotUpdate ⟨some .running, [(3, 7)]⟩ .finishedPanic
        = ⟨some .running, [(3, 7)]⟩ ∧
      slotUpdate (slotUpdate ⟨some .running, [(3, 7)]⟩ .finishedPanic)
        .finishedPanic = ⟨some .running, [(3, 7)]⟩) :=
  ⟨rfl, c6_single_flight ⟨some .running, [(3, 7)]⟩ .finishedPanic
    .finishedPanic rfl⟩

/-- C4 counterexample: the claim states that an annotation range whose
half-open intersection with the view is empty contributes no candidate.
For view `[100,200)` and range `[200,250)` the half-open intersection is
empty (`min 250 200 ≤ max 200 100`), yet the emptiness guard in
`anchor_interval` compares closed intervals, so the query contributes a
degenerate candidate at the screen's right edge. -/
theorem c4_counterexample :
    min 250 200 ≤ max 200 100 ∧
    collectRanges [((200, 250), 7)] ⟨100, 200⟩ (0, 100)
      = [(7, (100, 100))] := by
  constructor
  · norm_num
  · norm_num [collectRanges, anchor_interval, List.filterMap_cons,
      List.filterMap_nil]

/-- C4 (amended): the windowed query clips each hit to the view and maps
both clipped endpoints linearly into screen coordinates using the view's
start/end and the screen rect's left/right; a hit contributes no candidate
exactly when `start > view.end` or `end < view.start` (a closed-interval
emptiness test, so a range that merely touches the view boundary still
contributes a degenerate candidate).  The spec's concrete example holds:
for view `[100,200)` and range `[150,250)` the clipped interval `[150,200)`
is mapped linearly into the screen rect. -/
theorem c4_clip_and_linear_map (view : View1D) (pr : ℕ × ℕ) (si : ℚ × ℚ) :
    (anchor_interval view pr si = none ↔
      pr.1 > view.stop ∨ pr.2 < view.start) ∧
    (pr.1 ≤ view.stop → view.start ≤ pr.2 →
      anchor_interval view pr si = some
        (si.1 + (((max pr.1 view.start : ℕ) : ℚ) - (view.start : ℚ)) /
            ((view.stop : ℚ) - (view.start : ℚ)) * (si.2 - si.1),
         si.1 + (((min pr.2 view.stop : ℕ) : ℚ) - (view.start : ℚ)) /
            ((view.stop : ℚ) - (view.start : ℚ)) * (si.2 - si.1))) ∧
    (∀ sl sr : ℚ, anchor_interval ⟨100, 200⟩ (150, 250) (sl, sr)
        = some (sl + 1 / 2 * (sr - sl), sl + (sr - sl))) := by
  refine ⟨?_, ?_, ?_⟩
  · by_cases hg : pr.1 > view.stop ∨ pr.2 < view.start
    · simp [anchor_interval, hg]
    · simp [anchor_interval, hg]
  · intro h1 h2
    have hguard : ¬ (pr.1 > view.stop ∨ pr.2 < view.start) := by
      push_neg
      exact ⟨h1, h2⟩
    simp [anchor_interval, hguard]
  · intro sl sr
    norm_num [anchor_interval]

/-- C4 witness for the amended theorem: the spec's windowed-query example,
view `[100,200)`, annotation range `[150,250)`, screen rect `[0,100]`. -/
theorem c4_clip_and_linear_map_witness :
    ((150 : ℕ) ≤ 200 ∧ (100 : ℕ) ≤ 250) ∧
    anchor_interval ⟨100, 200⟩ (150, 250) (0, 100) = some
      (0 + (((max 150 100 : ℕ) : ℚ) - ((100 : ℕ) : ℚ)) /
          (((200 : ℕ) : ℚ) - ((100 : ℕ) : ℚ)) * (100 - 0),
       0 + (((min 250 200 : ℕ) : ℚ) - ((100 : ℕ) : ℚ)) /
          (((200 : ℕ) : ℚ) - ((100 : ℕ) : ℚ)) * (100 - 0)) :=
  ⟨⟨by norm_num, by norm_num⟩,
    (c4_clip_and_linear_map ⟨100, 200⟩ (150, 250) (0, 100)).2.1
      (by norm_num) (by norm_num)⟩

lemma mem_pangenomeEntries_lt {σ : Type} :
    ∀ (annotations : List ((ℕ × ℕ) × σ)) (i : ℕ) (e : (ℕ × ℕ) × ℕ),
      e ∈ pangenomeEntries i annotations → e.2 < i + annotations.length := by
  intro annotations
  induction annotations with
  | nil =>
    intro i e h
    simp [pangenomeEntries] at h
  | cons a rest ih =>
    intro i e h
    obtain ⟨r, s⟩ := a
    simp only [pangenomeEntries, List.mem_cons] at h
    rcases h with h | h
    · subst h
      simp only [List.length_cons]
      omega
    · have := ih (i + 1) e h
      simp only [List.length_cons]
      omega

lemma mem_pangenomeEntries_src {σ : Type} :
    ∀ (annotations : List ((ℕ × ℕ) × σ)) (i : ℕ) (e : (ℕ × ℕ) × ℕ),
      e ∈ pangenomeEntries i annotations →
        ∃ s : σ, ((e.1.1, e.1.2), s) ∈ annotations := by
  intro annotations
  induction annotations with
  | nil =>
    intro i e h
    simp [pangenomeEntries] at h
  | cons a rest ih =>
    intro i e h
    obtain ⟨r, s⟩ := a
    simp only [pangenomeEntries, List.mem_cons] at h
    rcases h with h | h
    · subst h
      exact ⟨s, by simp⟩
    · obtain ⟨s2, hs2⟩ := ih (i + 1) e h
      exact ⟨s2, by simp [hs2]⟩

lemma pangenomeEntries_of_mem {σ : Type} :
    ∀ (annotations : List ((ℕ × ℕ) × σ)) (i : ℕ) (r : ℕ × ℕ) (s : σ),
      (r, s) ∈ annotations →
        ∃ j : ℕ, ((r.1, r.2), j) ∈ pangenomeEntries i annotations := by
  intro annotations
  induction annotations with
  | nil =>
    intro i r s h
    simp at h
  | cons a rest ih =>
    intro i r s h
    obtain ⟨r0, s0⟩ := a
    rcases List.mem_cons.mp h with h | h
    · refine ⟨i, ?_⟩
      simp only [Prod.mk.injEq] at h
      simp [pangenomeEntries, h.1]
    · obtain ⟨j, hj⟩ := ih (i + 1) r s h
      exact ⟨j, by simp [pangenomeEntries, hj]⟩

lemma mem_pathEntries {σ : Type} (node_length : ℕ → ℕ)
    (iter : ℕ → ℕ × ℕ → Option (List (ℕ × ℕ))) :
    ∀ (annotations : List ((ℕ × (ℕ × ℕ)) × σ)) (i : ℕ) (e : (ℕ × ℕ) × ℕ),
      e ∈ pathEntries node_length iter i annotations →
        e.2 < i + annotations.length ∧
        ∃ a ∈ annotations, ∃ steps, iter a.1.1 a.1.2 = some steps ∧
          ∃ st ∈ steps,
            e.1 = (st.1, min (st.1 + node_length st.2) a.1.2.2) := by
  intro annotations
  induction annotations with
  | nil =>
    intro i e h
    simp [pathEntries] at h
  | cons a rest ih =>
    intro i e h
    obtain ⟨⟨path, path_range⟩, s⟩ := a
    simp only [pathEntries, List.mem_append] at h
    rcases h with h | h
    · rcases hit : iter path path_range with _ | steps
      · rw [hit] at h
        simp at h
      · rw [hit] at h
        simp only [List.mem_map] at h
        obtain ⟨st, hst, hste⟩ := h
        constructor
        · rw [← hste]
          simp only [List.length_cons]
          omega
        · refine ⟨((path, path_range), s), by simp, steps, hit, st, hst, ?_⟩
          rw [← hste]
    · obtain ⟨hlt, a2, ha2, rest2⟩ := ih (i + 1) e h
      refine ⟨by simp only [List.length_cons]; omega, a2, ?_, rest2⟩
      simp [ha2]

/-- C8 counterexample: the claim states that malformed ranges (start ≥ end)
are clamped or dropped at construction.  The pangenome-space constructor
performs no validation: the malformed input range `[5,3)` (start 5 ≥ end 3)
is stored in the spatial index verbatim. -/
theorem c8_counterexample :
    ((5, 3), 0) ∈ (new_from_pangenome_space [((5, 3), ())]).annots ∧
    5 ≥ 3 := by
  constructor
  · simp [new_from_pangenome_space, pangenomeEntries]
  · norm_num

/-- C8 (amended): construction is total and never fails at runtime, but the
pangenome-space constructor neither clamps nor drops: every index entry's
interval is an input range verbatim, and every input range — malformed or
not — yields an index entry.  The path-space constructor clamps each stored
segment's end to the source range's declared end,
`min (start + node_length node) range.end`. -/
theorem c8_no_validation_pangenome_clamp_path (σ : Type) :
    (∀ (annotations : List ((ℕ × ℕ) × σ)) (e : (ℕ × ℕ) × ℕ),
      e ∈ (new_from_pangenome_space annotations).annots →
        ∃ s : σ, ((e.1.1, e.1.2), s) ∈ annotations) ∧
    (∀ (annotations : List ((ℕ × ℕ) × σ)) (r : ℕ × ℕ) (s : σ),
      (r, s) ∈ annotations →
        ∃ j : ℕ, ((r.1, r.2), j) ∈
          (new_from_pangenome_space annotations).annots) ∧
    (∀ (node_length : ℕ → ℕ) (iter : ℕ → ℕ × ℕ → Option (List (ℕ × ℕ)))
        (annotations : List ((ℕ × (ℕ × ℕ)) × σ)) (e : (ℕ × ℕ) × ℕ),
      e ∈ (new_from_path_space node_length iter annotations).annots →
        ∃ a ∈ annotations, ∃ steps, iter a.1.1 a.1.2 = some steps ∧
          ∃ st ∈ steps,
            e.1 = (st.1, min (st.1 + node_length st.2) a.1.2.2) ∧
            e.1.2 ≤ a.1.2.2) := by
  refine ⟨?_, ?_, ?_⟩
  · intro annotations e h
    exact mem_pangenomeEntries_src annotations 0 e h
  · intro annotations r s h
    exact pangenomeEntries_of_mem annotations 0 r s h
  · intro node_length iter annotations e h
    obtain ⟨_, a, ha, steps, hsteps, st, hst, he⟩ :=
      (mem_pathEntries node_length iter annotations 0 e h)
    refine ⟨a, ha, steps, hsteps, st, hst, he, ?_⟩
    rw [he]
    exact min_le_right _ _

/-- C8 witness for the amended theorem: the malformed range `[5,3)` is
neither clamped nor dropped by the pangenome-space constructor. -/
theorem c8_no_validation_witness :
    (((5, 3), ()) ∈ [(((5, 3) : ℕ × ℕ), ())]) ∧
    (∃ j : ℕ, ((5, 3), j) ∈
      (new_from_pangenome_space [((5, 3), ())]).annots) :=
  ⟨by simp,
    (c8_no_validation_pangenome_clamp_path Unit).2.1 [((5, 3), ())]
      (5, 3) () (by simp)⟩

/-- C9: every AnnotationId tagged on an entry of a constructed slot's
spatial index is a valid index into the slot's render-callback table
`shape_fns`, for both constructors. -/
theorem c9_index_ids_have_callbacks (σ : Type) :
    (∀ (annotations : List ((ℕ × ℕ) × σ)) (e : (ℕ × ℕ) × ℕ),
      e ∈ (new_from_pangenome_space annotations).annots →
        e.2 < (new_from_pangenome_space annotations).shape_fns.length) ∧
    (∀ (node_length : ℕ → ℕ) (iter : ℕ → ℕ × ℕ → Option (List (ℕ × ℕ)))
        (annotations : List ((ℕ × (ℕ × ℕ)) × σ)) (e : (ℕ × ℕ) × ℕ),
      e ∈ (new_from_path_space node_length iter annotations).annots →
        e.2 < List.length
          (new_from_path_space node_length iter annotations).shape_fns) := by
  constructor
  · intro annotations e h
    have := mem_pangenomeEntries_lt annotations 0 e h
    simpa [new_from_pangenome_space] using this
  · intro node_length iter annotations e h
    have := (mem_pathEntries node_length iter annotations 0 e h).1
    simpa [new_from_path_space] using this

/-- C9 witness at a concrete one-annotation slot for each constructor. -/
theorem c9_index_ids_have_callbacks_witness :
    (((1, 2), 0) ∈ (new_from_pangenome_space [(((1, 2) : ℕ × ℕ), ())]).annots ∧
      0 < List.length
        (new_from_pangenome_space [(((1, 2) : ℕ × ℕ), ())]).shape_fns) ∧
    (((0, 2), 0) ∈ (new_from_path_space (fun _ => 5)
          (fun _ _ => some [(0, 0)]) [((0, (0, 2)), ())]).annots ∧
      0 < (new_from_path_space (fun _ => 5) (fun _ _ => some [(0, 0)])
            [((0, (0, 2)), ())]).shape_fns.length) :=
  ⟨⟨by simp [new_from_pangenome_space, pangenomeEntries],
    (c9_index_ids_have_callbacks Unit).1 [((1, 2), ())] ((1, 2), 0)
      (by simp [new_from_pangenome_space, pangenomeEntries])⟩,
   ⟨by simp [new_from_path_space, pathEntries],
    (c9_index_ids_have_callbacks Unit).2 (fun _ => 5)
      (fun _ _ => some [(0, 0)]) [((0, (0, 2)), ())] ((0, 2), 0)
      (by simp [new_from_path_space, pathEntries])⟩⟩

lemma endpoint_dists {tgt : ℚ} {r : ℚ × ℚ} (hwf : r.1 ≤ r.2)
    (h : ¬ (tgt ≥ r.1 ∧ tgt ≤ r.2)) :
    |(if tgt < r.1 then r.1 else r.2) - tgt| ≤ |r.1 - tgt| ∧
    |(if tgt < r.1 then r.1 else r.2) - tgt| ≤ |r.2 - tgt| := by
  by_cases h1 : tgt < r.1
  · rw [if_pos h1]
    have e1 : |r.1 - tgt| = r.1 - tgt := abs_of_pos (by linarith)
    have e2 : |r.2 - tgt| = r.2 - tgt := abs_of_pos (by linarith)
    rw [e1, e2]
    constructor <;> linarith
  · rw [if_neg h1]
    rcases not_contain_cases h with h2 | h2
    · exact absurd h2 h1
    · have e1 : |r.1 - tgt| = tgt - r.1 := by
        rw [abs_sub_comm]
        exact abs_of_pos (by linarith)
      have e2 : |r.2 - tgt| = tgt - r.2 := by
        rw [abs_sub_comm]
        exact abs_of_pos (by linarith)
      rw [e1, e2]
      constructor <;> linarith

lemma constrainLoop_of_contain {tgt : ℚ} :
    ∀ (ranges : List (ℚ × ℚ)) (dist closest : Option ℚ),
      (∃ r ∈ ranges, tgt ≥ r.1 ∧ tgt ≤ r.2) →
      constrainLoop tgt ranges dist closest = .ok (some tgt) := by
  intro ranges
  induction ranges with
  | nil =>
    intro dist closest h
    simp at h
  | cons r rest ih =>
    intro dist closest h
    by_cases hc : tgt ≥ r.1 ∧ tgt ≤ r.2
    · simp [constrainLoop, hc]
    · obtain ⟨r2, hr2, hcont⟩ := h
      rcases List.mem_cons.mp hr2 with rfl | hr2m
      · exact absurd hcont hc
      · have hne := nearestEndpoint_of_not_contain hc
        have hmem : ∃ r2 ∈ rest, tgt ≥ r2.1 ∧ tgt ≤ r2.2 := ⟨r2, hr2m, hcont⟩
        simp only [constrainLoop, if_neg hc, hne]
        split <;> split <;> exact ih _ _ hmem

lemma constrainLoop_min {tgt : ℚ} :
    ∀ (ranges : List (ℚ × ℚ)),
      (∀ r ∈ ranges, ¬ (tgt ≥ r.1 ∧ tgt ≤ r.2)) →
      (∀ r ∈ ranges, r.1 ≤ r.2) →
      ∀ (d c : ℚ), |c - tgt| = d →
        ∃ x, constrainLoop tgt ranges (some d) (some c) = .ok (some x) ∧
          |x - tgt| ≤ d ∧
          (x = c ∨ ∃ r ∈ ranges, x = r.1 ∨ x = r.2) ∧
          ∀ r ∈ ranges, |x - tgt| ≤ |r.1 - tgt| ∧ |x - tgt| ≤ |r.2 - tgt| := by
  intro ranges
  induction ranges with
  | nil =>
    intro _ _ d c hdc
    refine ⟨c, by simp [constrainLoop], le_of_eq hdc, Or.inl rfl, by simp⟩
  | cons r rest ih =>
    intro hnc hwf d c hdc
    have hc : ¬ (tgt ≥ r.1 ∧ tgt ≤ r.2) := hnc r (List.mem_cons_self r rest)
    have hne := nearestEndpoint_of_not_contain hc
    have hd2 := endpoint_dists (hwf r (List.mem_cons_self r rest)) hc
    have hc2or : (if tgt < r.1 then r.1 else r.2) = r.1 ∨
        (if tgt < r.1 then r.1 else r.2) = r.2 := by
      by_cases h1 : tgt < r.1
      · exact Or.inl (if_pos h1)
      · exact Or.inr (if_neg h1)
    have hncr : ∀ r2 ∈ rest, ¬ (tgt ≥ r2.1 ∧ tgt ≤ r2.2) :=
      fun r2 hr2 => hnc r2 (List.mem_cons_of_mem r hr2)
    have hwfr : ∀ r2 ∈ rest, r2.1 ≤ r2.2 :=
      fun r2 hr2 => hwf r2 (List.mem_cons_of_mem r hr2)
    by_cases hlt : |(if tgt < r.1 then r.1 else r.2) - tgt| < d
    · obtain ⟨x, hloop, hxd, hxsrc, hxall⟩ :=
        ih hncr hwfr |(if tgt < r.1 then r.1 else r.2) - tgt|
          (if tgt < r.1 then r.1 else r.2) rfl
      refine ⟨x, ?_, by linarith, ?_, ?_⟩
      · simp only [constrainLoop, if_neg hc, hne, hlt, decide_True]
        simpa using hloop
      · rcases hxsrc with rfl | ⟨r2, hr2, he⟩
        · exact Or.inr ⟨r, List.mem_cons_self r rest, hc2or⟩
        · exact Or.inr ⟨r2, List.mem_cons_of_mem r hr2, he⟩
      · intro r2 hr2
        rcases List.mem_cons.mp hr2 with rfl | hm
        · exact ⟨by linarith [hd2.1], by linarith [hd2.2]⟩
        · exact hxall r2 hm
    · obtain ⟨x, hloop, hxd, hxsrc, hxall⟩ := ih hncr hwfr d c hdc
      have hge : d ≤ |(if tgt < r.1 then r.1 else r.2) - tgt| := not_lt.mp hlt
      refine ⟨x, ?_, hxd, ?_, ?_⟩
      · simp only [constrainLoop, if_neg hc, hne, hlt, decide_False]
        simpa using hloop
      · rcases hxsrc with rfl | ⟨r2, hr2, he⟩
        · exact Or.inl rfl
        · exact Or.inr ⟨r2, List.mem_cons_of_mem r hr2, he⟩
      · intro r2 hr2
        rcases List.mem_cons.mp hr2 with rfl | hm
        · exact ⟨by linarith [hd2.1], by linarith [hd2.2]⟩
        · exact hxall r2 hm

/-- C5: for an annotation that already has an anchor target and is visible,
the target is retained unchanged if it lies within any current visible
sub-range, and is otherwise moved to the endpoint, across all candidate
sub-ranges, closest to the old target; in particular target 65 against the
single new sub-range `[80,120]` resolves to exactly 80. -/
theorem c5_existing_target_constrained (tgt : ℚ) (ranges : List (ℚ × ℚ))
    (hne : ranges ≠ []) (hwf : ∀ r ∈ ranges, r.1 ≤ r.2) :
    ((∃ r ∈ ranges, tgt ≥ r.1 ∧ tgt ≤ r.2) →
      updateTarget tgt ranges = .ok tgt) ∧
    ((∀ r ∈ ranges, ¬ (tgt ≥ r.1 ∧ tgt ≤ r.2)) →
      ∃ x, updateTarget tgt ranges = .ok x ∧
        (∃ r ∈ ranges, x = r.1 ∨ x = r.2) ∧
        ∀ r ∈ ranges, |x - tgt| ≤ |r.1 - tgt| ∧ |x - tgt| ≤ |r.2 - tgt|) ∧
    updateTarget 65 [(80, 120)] = .ok 80 := by
  refine ⟨?_, ?_, ?_⟩
  · intro h
    rw [updateTarget, constrainLoop_of_contain ranges none none h]
    rfl
  · intro hnc
    match ranges, hne with
    | r :: rest, _ =>
      have hc : ¬ (tgt ≥ r.1 ∧ tgt ≤ r.2) := hnc r (List.mem_cons_self r rest)
      have hne2 := nearestEndpoint_of_not_contain hc
      have hd2 := endpoint_dists (hwf r (List.mem_cons_self r rest)) hc
      have hc2or : (if tgt < r.1 then r.1 else r.2) = r.1 ∨
          (if tgt < r.1 then r.1 else r.2) = r.2 := by
        by_cases h1 : tgt < r.1
        · exact Or.inl (if_pos h1)
        · exact Or.inr (if_neg h1)
      obtain ⟨x, hloop, hxd, hxsrc, hxall⟩ :=
        constrainLoop_min rest
          (fun r2 hr2 => hnc r2 (List.mem_cons_of_mem r hr2))
          (fun r2 hr2 => hwf r2 (List.mem_cons_of_mem r hr2))
          |(if tgt < r.1 then r.1 else r.2) - tgt|
          (if tgt < r.1 then r.1 else r.2) rfl
      refine ⟨x, ?_, ?_, ?_⟩
      · rw [updateTarget]
        have hstep : constrainLoop tgt (r :: rest) none none
            = .ok (some x) := by
          simp only [constrainLoop, if_neg hc, hne2]
          simpa using hloop
        rw [hstep]
        rfl
      · rcases hxsrc with rfl | ⟨r2, hr2, he⟩
        · exact ⟨r, List.mem_cons_self r rest, hc2or⟩
        · exact ⟨r2, List.mem_cons_of_mem r hr2, he⟩
      · intro r2 hr2
        rcases List.mem_cons.mp hr2 with rfl | hm
        · exact ⟨by linarith [hd2.1], by linarith [hd2.2]⟩
        · exact hxall r2 hm
  · norm_num [updateTarget, constrainLoop, nearestEndpoint, Except.map]

/-- C5 witness: the spec's continuity example, old target 65 against the
single visible sub-range `[80,120]`. -/
theorem c5_existing_target_constrained_witness :
    (([((80 : ℚ), (120 : ℚ))] : List (ℚ × ℚ)) ≠ [] ∧
      (∀ r ∈ [((80 : ℚ), (120 : ℚ))], r.1 ≤ r.2)) ∧
    updateTarget 65 [(80, 120)] = .ok 80 :=
  ⟨⟨by simp, by norm_num⟩,
    (c5_existing_target_constrained 65 [(80, 120)] (by simp)
      (by norm_num)).2.2⟩

lemma getD_mem {α : Type} (l : List α) (d : α) :
    ∀ (i : ℕ), i < l.length → l.getD i d ∈ l := by
  induction l with
  | nil =>
    intro i h
    simp at h
  | cons a t ih =>
    intro i h
    cases i with
    | zero => simp
    | succ n =>
      have := ih n (by simpa using h)
      simpa using Or.inr this

lemma presum_nonneg (ws : List ℚ) (hnn : ∀ w ∈ ws, 0 ≤ w) (i : ℕ) :
    0 ≤ presum ws i := by
  apply List.sum_nonneg
  intro x hx
  exact hnn x (List.take_subset i ws hx)

lemma weightedIndex_lt_length :
    ∀ (ws : List ℚ) (x : ℚ), 0 ≤ x → x < ws.sum →
      weightedIndex ws x < ws.length := by
  intro ws
  induction ws with
  | nil =>
    intro x h0 hs
    simp at hs
    linarith
  | cons w rest ih =>
    intro x h0 hs
    by_cases hxw : x < w
    · simp [weightedIndex, hxw]
    · have h2 : (0 : ℚ) ≤ x - w := by linarith [not_lt.mp hxw]
      have h3 : x - w < rest.sum := by
        simp only [List.sum_cons] at hs
        linarith
      simp only [weightedIndex, if_neg hxw, List.length_cons]
      exact Nat.succ_lt_succ (ih (x - w) h2 h3)

lemma weightedIndex_bucket :
    ∀ (ws : List ℚ), (∀ w ∈ ws, 0 ≤ w) →
      ∀ (i : ℕ) (hi : i < ws.length) (y : ℚ), 0 ≤ y →
        (weightedIndex ws y = i ↔
          presum ws i ≤ y ∧ y < presum ws i + ws.get ⟨i, hi⟩) := by
  intro ws
  induction ws with
  | nil =>
    intro _ i hi
    simp at hi
  | cons w rest ih =>
    intro hnn i hi y hy
    cases i with
    | zero =>
      simp only [presum, List.take_zero, List.sum_nil, List.get, zero_add]
      constructor
      · intro h
        by_cases hyw : y < w
        · exact ⟨hy, hyw⟩
        · simp [weightedIndex, hyw] at h
      · intro h
        simp [weightedIndex, h.2]
    | succ n =>
      have hn : n < rest.length := by simpa using hi
      have hpre : presum (w :: rest) (n + 1) = w + presum rest n := by
        simp [presum, List.take_succ_cons, List.sum_cons]
      have hget : (w :: rest).get ⟨n + 1, hi⟩ = rest.get ⟨n, hn⟩ := rfl
      by_cases hyw : y < w
      · simp only [weightedIndex, if_pos hyw, hpre, hget]
        constructor
        · intro h
          exact absurd h (by omega)
        · intro h
          exfalso
          have hpr : 0 ≤ presum rest n :=
            presum_nonneg rest
              (fun w2 hw2 => hnn w2 (List.mem_cons_of_mem w hw2)) n
          linarith [h.1]
      · have hy2 : (0 : ℚ) ≤ y - w := by linarith [not_lt.mp hyw]
        have hih := ih
          (fun w2 hw2 => hnn w2 (List.mem_cons_of_mem w hw2)) n hn
          (y - w) hy2
        simp only [weightedIndex, if_neg hyw, hpre, hget,
          Nat.succ_eq_add_one, Nat.add_right_cancel_iff]
        rw [hih]
        constructor
        · intro h
          exact ⟨by linarith [h.1], by linarith [h.2]⟩
        · intro h
          exact ⟨by linarith [h.1], by linarith [h.2]⟩

/-- C7 counterexample: the claim states that every annotation entering the
view with no existing anchor target gets its target chosen by weighted
sampling over its visible clipped sub-ranges.  An annotation whose only
visible sub-range is degenerate — exactly what the windowed query produces
for a range touching the view boundary, e.g. view `[100,200)` with range
`[200,250)` — has weight list `[0]` with total weight zero, so
`WeightedIndex::new(&lens)` fails and the `.unwrap()` at annotations.rs:259
panics: no target is chosen at all. -/
theorem c7_counterexample :
    anchor_interval ⟨100, 200⟩ (200, 250) (0, 100) = some (100, 100) ∧
    chooseNewTarget [(100, 100)] 0 (1 / 2) = .error () := by
  constructor
  · norm_num [anchor_interval]
  · norm_num [chooseNewTarget]

/-- C7 (amended): for an annotation whose visible clipped sub-ranges have
positive total length, the fresh anchor target is drawn by weighted
sampling: the sampled point lies inside one of the sub-ranges; the
weighted-index sampler selects index `i` exactly when the uniform draw
lands in the cumulative-weight bucket of width equal to the `i`-th weight
(probability proportional to sub-range length); for weights 10 and 90 the
length-90 sub-range is selected exactly on draws in `[10,100)`, a 0.9
fraction of the draw space.  When the sub-ranges' total length is zero,
`WeightedIndex::new(..).unwrap()` panics instead of choosing a target. -/
theorem c7_new_target_weighted_sampling (ranges : List (ℚ × ℚ)) (x u : ℚ)
    (hwf : ∀ r ∈ ranges, r.1 ≤ r.2) (hx0 : 0 ≤ x)
    (hxs : x < (ranges.map (fun r => r.2 - r.1)).sum)
    (hu0 : 0 ≤ u) (hu1 : u ≤ 1) :
    (∃ r ∈ ranges, ∃ t : ℚ, chooseNewTarget ranges x u = .ok t ∧
      r.1 ≤ t ∧ t ≤ r.2) ∧
    (∀ (ws : List ℚ), (∀ w ∈ ws, 0 ≤ w) →
      ∀ (i : ℕ) (hi : i < ws.length) (y : ℚ), 0 ≤ y →
        (weightedIndex ws y = i ↔
          presum ws i ≤ y ∧ y < presum ws i + ws.get ⟨i, hi⟩)) ∧
    (∀ y : ℚ, 0 ≤ y → y < 100 →
      (weightedIndex [10, 90] y = 1 ↔ 10 ≤ y)) ∧
    (∀ (rs : List (ℚ × ℚ)) (y v : ℚ),
      (rs.map (fun r => r.2 - r.1)).sum = 0 →
        chooseNewTarget rs y v = .error ()) := by
  refine ⟨?_, weightedIndex_bucket, ?_, ?_⟩
  · have hpos : (0 : ℚ) < (ranges.map (fun r => r.2 - r.1)).sum :=
      lt_of_le_of_lt hx0 hxs
    have hguard : ¬ (ranges.map (fun r => r.2 - r.1) = [] ∨
        (∃ w ∈ ranges.map (fun r => r.2 - r.1), w < 0) ∨
        (ranges.map (fun r => r.2 - r.1)).sum = 0) := by
      push_neg
      refine ⟨?_, ?_, ne_of_gt hpos⟩
      · intro h
        rw [h] at hpos
        simp at hpos
      · intro w hw
        obtain ⟨r, hr, hrw⟩ := List.mem_map.mp hw
        have := hwf r hr
        rw [← hrw]
        linarith
    have hix : weightedIndex (ranges.map (fun r => r.2 - r.1)) x
        < ranges.length := by
      have := weightedIndex_lt_length (ranges.map (fun r => r.2 - r.1))
        x hx0 hxs
      simpa using this
    have hmem : ranges.getD (weightedIndex
        (ranges.map (fun r => r.2 - r.1)) x) (0, 0) ∈ ranges :=
      getD_mem ranges (0, 0) _ hix
    have hr := hwf _ hmem
    have heq : chooseNewTarget ranges x u = .ok (genRangeInclusive
        (ranges.getD (weightedIndex (ranges.map (fun r => r.2 - r.1)) x)
          (0, 0)).1
        (ranges.getD (weightedIndex (ranges.map (fun r => r.2 - r.1)) x)
          (0, 0)).2 u) := by
      simp only [chooseNewTarget]
      rw [if_neg hguard]
    refine ⟨_, hmem, _, heq, ?_, ?_⟩
    · simp only [genRangeInclusive]
      nlinarith [mul_nonneg hu0 (sub_nonneg.mpr hr)]
    · simp only [genRangeInclusive]
      nlinarith [mul_nonneg (sub_nonneg.mpr hu1) (sub_nonneg.mpr hr)]
  · intro y hy0 hy100
    have hb := weightedIndex_bucket [10, 90] (by norm_num) 1 (by norm_num)
      y hy0
    rw [hb]
    norm_num [presum]
    exact fun _ => hy100
  · intro rs y v hsum
    simp only [chooseNewTarget]
    rw [if_pos (Or.inr (Or.inr hsum))]

/-- C7 witness for the amended theorem: sub-ranges of length 10 and 90,
uniform draws x = 50 and u = 1/2; the sampled target is produced (no
panic) and lies inside one of the two sub-ranges. -/
theorem c7_new_target_weighted_sampling_witness :
    ((∀ r ∈ [((0 : ℚ), (10 : ℚ)), (20, 110)], r.1 ≤ r.2) ∧
      (0 : ℚ) ≤ 50 ∧
      (50 : ℚ) <
        (([((0 : ℚ), (10 : ℚ)), (20, 110)]).map (fun r => r.2 - r.1)).sum ∧
      (0 : ℚ) ≤ 1 / 2 ∧ (1 / 2 : ℚ) ≤ 1) ∧
    (∃ r ∈ [((0 : ℚ), (10 : ℚ)), (20, 110)], ∃ t : ℚ,
      chooseNewTarget [(0, 10), (20, 110)] 50 (1 / 2) = .ok t ∧
      r.1 ≤ t ∧ t ≤ r.2) :=
  ⟨⟨by norm_num, by norm_num, by norm_num, by norm_num, by norm_num⟩,
    (c7_new_target_weighted_sampling [(0, 10), (20, 110)] 50 (1 / 2)
      (by norm_num) (by norm_num) (by norm_num) (by norm_num)
      (by norm_num)).1⟩

end Waragraph
